import Mathlib

/-!
Verification of the notes application: the Django model `Note`
(src/notes/models.py) together with its admin configuration `NoteAdmin`
(src/notes/admin.py), embedded shallowly.

The repository is declarative: a schema plus admin descriptors. The
operational meaning of each declaration (CASCADE delete on the owner
foreign key, `max_length=200` enforcement at the persistence boundary,
`auto_now_add` / `auto_now` timestamping, `Meta.ordering`, and the
case-insensitive containment search over `search_fields`) is embedded as
explicit Lean functions over a database value, following the framework
semantics the spec describes.  Timestamps are modelled as natural-number
clock ticks.
-/

namespace NotesApp

/-- A record of the external user model (`settings.AUTH_USER_MODEL`): only
its primary key and its `username` matter here (the `owner` foreign key and
the `owner__username` search field). -/
structure User where
  id : Nat
  username : String
deriving Repr, DecidableEq

/-- The `Note` model of src/notes/models.py: `title` is a `CharField` with
`max_length=200`, `content` a `TextField`, `owner` a foreign key with
`on_delete=CASCADE`, `created_at` carries `auto_now_add=True` and
`updated_at` carries `auto_now=True`. -/
structure Note where
  id : Nat
  title : String
  content : String
  owner : Nat
  created_at : Nat
  updated_at : Nat
deriving Repr, DecidableEq

/-- The persisted state: the external user table and the note table. -/
structure DB where
  users : List User
  notes : List Note
deriving Repr, DecidableEq

/-- The empty database. -/
def emptyDB : DB := ⟨[], []⟩

/-- `max_length=200` on `Note.title`. -/
def titleMaxLength : Nat := 200

/-- The length constraint the persistence boundary enforces on `title`. -/
def validTitle (t : String) : Bool := t.length ≤ titleMaxLength

/-- Referential integrity for the `owner` foreign key. -/
def userExists (db : DB) (uid : Nat) : Bool :=
  db.users.any (fun u => u.id == uid)

/-- Registering a row in the external user table. -/
def addUser (db : DB) (u : User) : DB :=
  { db with users := db.users ++ [u] }

/-- Persisting a new `Note` at clock `now`: the write is rejected (state
unchanged, `none`) if `title` violates `max_length=200` or the owner does
not exist; otherwise one row is appended, with `created_at` set by
`auto_now_add` and `updated_at` set by `auto_now`, both to `now`. -/
def createNote (db : DB) (now nid : Nat) (title content : String)
    (uid : Nat) : Option DB :=
  if validTitle title && userExists db uid then
    some { db with notes :=
      db.notes ++ [⟨nid, title, content, uid, now, now⟩] }
  else none

/-- The effect of saving an update at clock `now` on one stored row: the
row with the targeted id receives the new `title` and `content` and has
`updated_at` re-stamped by `auto_now`; `created_at` and `owner` are left
as they are; other rows are untouched. -/
def touch (now nid : Nat) (title content : String) (n : Note) : Note :=
  if n.id == nid then
    { n with title := title, content := content, updated_at := now }
  else n

/-- Updating the note with id `nid` at clock `now`: rejected (state
unchanged, `none`) if the new `title` violates `max_length=200`. -/
def updateNote (db : DB) (now nid : Nat) (title content : String) :
    Option DB :=
  if validTitle title then
    some { db with notes := db.notes.map (touch now nid title content) }
  else none

/-- Deleting a user: the user row is removed and, through
`on_delete=CASCADE` on `Note.owner`, every note owned by that user is
removed in the same operation. -/
def deleteUser (db : DB) (uid : Nat) : DB :=
  { users := db.users.filter (fun u => u.id != uid),
    notes := db.notes.filter (fun n => n.owner != uid) }

/-- Deleting a single note by id. -/
def deleteNote (db : DB) (nid : Nat) : DB :=
  { db with notes := db.notes.filter (fun n => n.id != nid) }

/-- `Note.__str__`: `return self.title[:50]`. -/
def noteStr (n : Note) : String := n.title.take 50

/-- Insertion step for the default ordering: keeps the list sorted by
`updated_at`, largest first. -/
def insertByUpdatedDesc (n : Note) : List Note → List Note
  | [] => [n]
  | m :: ms =>
    if m.updated_at ≤ n.updated_at then n :: m :: ms
    else m :: insertByUpdatedDesc n ms

/-- Sorting by `updated_at`, largest first. -/
def sortByUpdatedDesc : List Note → List Note
  | [] => []
  | n :: ns => insertByUpdatedDesc n (sortByUpdatedDesc ns)

/-- An unordered listing of notes, as delivered under
`Meta.ordering = ["-updated_at"]`: most recently modified first. -/
def listNotes (db : DB) : List Note := sortByUpdatedDesc db.notes

/-- `NoteAdmin.list_display` of src/notes/admin.py. -/
def list_display : List String := ["id", "title", "owner", "updated_at"]

/-- `NoteAdmin.search_fields` of src/notes/admin.py. -/
def search_fields : List String := ["title", "content", "owner__username"]

/-- `NoteAdmin.list_filter` of src/notes/admin.py. -/
def list_filter : List String := ["updated_at"]

/-- The username the `owner` foreign key resolves to (empty when the user
row is absent; a stored note always has an existing owner). -/
def usernameOf (db : DB) (uid : Nat) : String :=
  match db.users.find? (fun u => u.id == uid) with
  | some u => u.username
  | none => ""

/-- The text a field path of the admin descriptors denotes on a given
note: `owner` renders as the user's `username` (the default user model
displays itself by `username`), `owner__username` follows the foreign key
to `username`. -/
def fieldValue (db : DB) (n : Note) : String → String
  | "id" => toString n.id
  | "title" => n.title
  | "content" => n.content
  | "owner" => usernameOf db n.owner
  | "owner__username" => usernameOf db n.owner
  | "updated_at" => toString n.updated_at
  | _ => ""

/-- One admin list-view row: the cells named by `list_display`, in order. -/
def renderRow (db : DB) (n : Note) : List String :=
  list_display.map (fieldValue db n)

/-- Characters of a string, lower-cased: the case-folding underlying the
admin's `icontains` matching. -/
def lowerChars (s : String) : List Char := s.data.map Char.toLower

/-- `icontains`: `q` occurs contiguously inside `hay`, ignoring case. -/
def ciContains (hay q : String) : Bool :=
  decide (lowerChars q <:+: lowerChars hay)

/-- A note matches a query when some field of `search_fields` contains the
query, ignoring case: the admin's OR across the three fields. -/
def matchesQuery (db : DB) (q : String) (n : Note) : Bool :=
  search_fields.any (fun f => ciContains (fieldValue db n f) q)

/-- Admin search: the listing restricted to the notes matching the query. -/
def searchNotes (db : DB) (q : String) : List Note :=
  (listNotes db).filter (matchesQuery db q)

/-- The states reachable from the empty database by registering users,
creating, updating and deleting notes, and deleting users, under a clock
that never runs backwards.  `Reachable t db` reads: `db` is observable at
clock `t`. -/
inductive Reachable : Nat → DB → Prop where
  | init : Reachable 0 emptyDB
  | user {t db} (u : User) :
      Reachable t db → Reachable t (addUser db u)
  | create {t t' db db'} (nid : Nat) (title content : String) (uid : Nat) :
      Reachable t db → t ≤ t' →
      createNote db t' nid title content uid = some db' →
      Reachable t' db'
  | update {t t' db db'} (nid : Nat) (title content : String) :
      Reachable t db → t ≤ t' →
      updateNote db t' nid title content = some db' →
      Reachable t' db'
  | delUser {t db} (uid : Nat) :
      Reachable t db → Reachable t (deleteUser db uid)
  | delNote {t db} (nid : Nat) :
      Reachable t db → Reachable t (deleteNote db nid)

/-! ### Helper lemmas -/

/-- Inserting into the ordering keeps the same multiset of notes. -/
theorem insertByUpdatedDesc_perm (n : Note) (l : List Note) :
    (insertByUpdatedDesc n l).Perm (n :: l) := by
  induction l with
  | nil => exact List.Perm.refl _
  | cons m ms ih =>
    simp only [insertByUpdatedDesc]
    split
    · exact List.Perm.refl _
    · exact (ih.cons m).trans (List.Perm.swap n m ms)

/-- Sorting keeps the same multiset of notes. -/
theorem sortByUpdatedDesc_perm (l : List Note) :
    (sortByUpdatedDesc l).Perm l := by
  induction l with
  | nil => exact List.Perm.refl _
  | cons n ns ih =>
    exact (insertByUpdatedDesc_perm n (sortByUpdatedDesc ns)).trans (ih.cons n)

/-- Inserting preserves the sortedness of the ordering. -/
theorem insertByUpdatedDesc_sorted {l : List Note} (n : Note)
    (h : l.Pairwise (fun a b => b.updated_at ≤ a.updated_at)) :
    (insertByUpdatedDesc n l).Pairwise
      (fun a b => b.updated_at ≤ a.updated_at) := by
  induction l with
  | nil => simp [insertByUpdatedDesc]
  | cons m ms ih =>
    rcases List.pairwise_cons.mp h with ⟨hm, hms⟩
    simp only [insertByUpdatedDesc]
    split
    case isTrue hle =>
      refine List.pairwise_cons.mpr ⟨?_, h⟩
      intro b hb
      rcases List.mem_cons.mp hb with rfl | hb
      · exact hle
      · exact (hm b hb).trans hle
    case isFalse hgt =>
      refine List.pairwise_cons.mpr ⟨?_, ih hms⟩
      intro b hb
      have hb' := (insertByUpdatedDesc_perm n ms).mem_iff.mp hb
      rcases List.mem_cons.mp hb' with rfl | hb'
      · exact le_of_not_le hgt
      · exact hm b hb'

/-- The sort delivers a list sorted by `updated_at`, largest first. -/
theorem sortByUpdatedDesc_sorted (l : List Note) :
    (sortByUpdatedDesc l).Pairwise
      (fun a b => b.updated_at ≤ a.updated_at) := by
  induction l with
  | nil => simp [sortByUpdatedDesc]
  | cons n ns ih => exact insertByUpdatedDesc_sorted n ih

/-- The length of a string counts its characters. -/
theorem string_length_data (s : String) : s.length = s.data.length := rfl

/-- A duplicate-free list whose members all equal `a`, with `a` a member,
is the one-element list `[a]`. -/
theorem nodup_all_eq_singleton {α : Type} {l : List α} {a : α}
    (hnd : l.Nodup) (ha : a ∈ l) (hall : ∀ x ∈ l, x = a) : l = [a] := by
  cases l with
  | nil => cases ha
  | cons b bs =>
    have hb : b = a := hall b (List.mem_cons_self b bs)
    have hnotin : b ∉ bs := (List.nodup_cons.mp hnd).1
    cases bs with
    | nil => rw [hb]
    | cons c cs =>
      have hc : c = a := hall c (by simp)
      exact absurd (by simp [hb, hc] : b ∈ c :: cs) hnotin

/-- Matching a query is the OR, across the three entries of
`search_fields`, of case-ignoring containment. -/
theorem matchesQuery_eq (db : DB) (q : String) (n : Note) :
    matchesQuery db q n =
      (ciContains n.title q || ciContains n.content q ||
        ciContains (usernameOf db n.owner) q) := by
  simp [matchesQuery, search_fields, fieldValue, Bool.or_assoc]

/-- Invariant of every reachable state: each stored note was created no
later than it was last updated, and was last updated no later than the
current clock. -/
theorem reachable_inv {t : Nat} {db : DB} (h : Reachable t db) :
    ∀ n ∈ db.notes, n.created_at ≤ n.updated_at ∧ n.updated_at ≤ t := by
  induction h with
  | init => intro n hn; cases hn
  | user u hr ih => exact ih
  | create nid title content uid hr hle hc ih =>
    intro n hn
    rw [createNote] at hc
    split at hc
    · injection hc with hc
      subst hc
      rcases List.mem_append.mp hn with hn' | hn'
      · obtain ⟨h1, h2⟩ := ih n hn'
        exact ⟨h1, h2.trans hle⟩
      · simp only [List.mem_singleton] at hn'
        subst hn'
        exact ⟨Nat.le_refl _, Nat.le_refl _⟩
    · exact Option.noConfusion hc
  | update nid title content hr hle hu ih =>
    intro n hn
    rw [updateNote] at hu
    split at hu
    · injection hu with hu
      subst hu
      rcases List.mem_map.mp hn with ⟨m, hm, rfl⟩
      obtain ⟨h1, h2⟩ := ih m hm
      by_cases hid : m.id = nid
      · simp only [touch, hid, beq_self_eq_true, if_true]
        exact ⟨h1.trans (h2.trans hle), Nat.le_refl _⟩
      · have hbeq : (m.id == nid) = false := by
          simp [hid]
        simp only [touch, hbeq, if_neg Bool.false_ne_true]
        exact ⟨h1, h2.trans hle⟩
    · exact Option.noConfusion hu
  | delUser uid hr ih =>
    intro n hn
    exact ih n (List.mem_of_mem_filter hn)
  | delNote nid hr ih =>
    intro n hn
    exact ih n (List.mem_of_mem_filter hn)

/-! ### Claims -/

/-- C1: deleting a user `U` deletes, in the same operation, every note
whose owner is `U` (the cascade of `on_delete=CASCADE`), and deletes no
note whose owner is not `U`; the user row itself is the only user row
removed. -/
theorem deleteUser_cascade (db : DB) (uid : Nat) :
    (∀ n : Note, n ∈ (deleteUser db uid).notes ↔
      n ∈ db.notes ∧ n.owner ≠ uid) ∧
    (∀ u : User, u ∈ (deleteUser db uid).users ↔
      u ∈ db.users ∧ u.id ≠ uid) := by
  constructor
  · intro n
    simp [deleteUser, List.mem_filter]
  · intro u
    simp [deleteUser, List.mem_filter]

/-- C5: every listing is a permutation of the stored notes sorted by
`updated_at` descending (most recently modified first); in particular
three stored notes with `updated_at` values `T1 < T2 < T3` are listed as
`[T3, T2, T1]`. -/
theorem listNotes_ordering (db : DB) :
    (listNotes db).Perm db.notes ∧
    (listNotes db).Pairwise (fun a b => b.updated_at ≤ a.updated_at) ∧
    (∀ (us : List User) (n1 n2 n3 : Note),
      n1.updated_at < n2.updated_at → n2.updated_at < n3.updated_at →
      listNotes ⟨us, [n1, n2, n3]⟩ = [n3, n2, n1]) := by
  refine ⟨sortByUpdatedDesc_perm db.notes, sortByUpdatedDesc_sorted db.notes,
    ?_⟩
  intro us n1 n2 n3 h12 h23
  have h13 : n1.updated_at < n3.updated_at := h12.trans h23
  simp [listNotes, sortByUpdatedDesc, insertByUpdatedDesc,
    Nat.not_le.mpr h12, Nat.not_le.mpr h23, Nat.not_le.mpr h13]

/-- C5 witness: three concrete notes with `updated_at` values 1 < 2 < 3
are listed third, second, first. -/
theorem listNotes_ordering_witness :
    listNotes ⟨[⟨7, "alice"⟩],
      [⟨1, "a", "", 7, 1, 1⟩, ⟨2, "b", "", 7, 2, 2⟩, ⟨3, "c", "", 7, 3, 3⟩]⟩ =
      [⟨3, "c", "", 7, 3, 3⟩, ⟨2, "b", "", 7, 2, 2⟩, ⟨1, "a", "", 7, 1, 1⟩] :=
  (listNotes_ordering ⟨[⟨7, "alice"⟩], []⟩).2.2 [⟨7, "alice"⟩]
    ⟨1, "a", "", 7, 1, 1⟩ ⟨2, "b", "", 7, 2, 2⟩ ⟨3, "c", "", 7, 3, 3⟩
    (by decide) (by decide)

/-- C8: the admin list view renders, for every note row, exactly four
cells, in order: the identifier, the title, the owner, and the
last-updated timestamp — as dictated by `list_display`. -/
theorem renderRow_columns (db : DB) (n : Note) :
    renderRow db n =
      [toString n.id, n.title, usernameOf db n.owner,
        toString n.updated_at] ∧
    (renderRow db n).length = 4 :=
  ⟨rfl, rfl⟩

/-- C6: the display label of a note is the first 50 characters of its
title — a hard character cutoff, no ellipsis — as a pure function of the
note's state; for a 60-character title it is exactly the first 50
characters. -/
theorem noteStr_cutoff (n : Note) :
    (noteStr n).data = n.title.data.take 50 ∧
    (n.title.length = 60 →
      (noteStr n).data = n.title.data.take 50 ∧ (noteStr n).length = 50) := by
  have hdata : (noteStr n).data = n.title.data.take 50 :=
    String.data_take n.title 50
  refine ⟨hdata, fun h60 => ⟨hdata, ?_⟩⟩
  have hlen : n.title.data.length = 60 := by
    rw [← string_length_data]
    exact h60
  rw [string_length_data, hdata, List.length_take, hlen]
  omega

/-- C6 witness: a note whose title is 60 copies of `A` has label the first
50 characters of the title. -/
theorem noteStr_cutoff_witness :
    (noteStr ⟨1, String.mk (List.replicate 60 'A'), "", 7, 0, 0⟩).data =
      (String.mk (List.replicate 60 'A')).data.take 50 ∧
    (noteStr ⟨1, String.mk (List.replicate 60 'A'), "", 7, 0, 0⟩).length = 50 :=
  (noteStr_cutoff ⟨1, String.mk (List.replicate 60 'A'), "", 7, 0, 0⟩).2
    (by
      have h : (String.mk (List.replicate 60 'A')).length =
          (List.replicate 60 'A').length := rfl
      rw [h, List.length_replicate])

/-- C9: the display label is defined on every title and never fails — it
is a total Lean function — and on a title of at most 50 characters it is
the title unchanged; hence applying the cutoff to an already-labelled note
changes nothing (idempotence). -/
theorem noteStr_total_identity (n : Note) :
    (n.title.length ≤ 50 → noteStr n = n.title) ∧
    noteStr { n with title := noteStr n } = noteStr n := by
  constructor
  · intro h
    apply String.ext
    show (n.title.take 50).data = n.title.data
    rw [String.data_take]
    exact List.take_of_length_le h
  · apply String.ext
    simp only [noteStr]
    rw [String.data_take, String.data_take, List.take_take]
    simp

/-- C9 witness: the short title `"hi"` is its own label. -/
theorem noteStr_total_identity_witness :
    noteStr ⟨1, "hi", "", 7, 0, 0⟩ = "hi" :=
  (noteStr_total_identity ⟨1, "hi", "", 7, 0, 0⟩).1 (by decide)

/-- C3: any create or update attempt whose title has more than 200
characters fails: the result is `none` — no row is persisted or altered,
and falling back to the prior state leaves it exactly as it was (no
truncation of the value happens anywhere). -/
theorem long_title_rejected (db : DB) (now nid : Nat)
    (title content : String) (uid : Nat)
    (h : titleMaxLength < title.length) :
    createNote db now nid title content uid = none ∧
    updateNote db now nid title content = none ∧
    (createNote db now nid title content uid).getD db = db ∧
    (updateNote db now nid title content).getD db = db := by
  have hv : validTitle title = false := by
    simp only [validTitle, titleMaxLength, decide_eq_false_iff_not,
      Nat.not_le]
    exact h
  refine ⟨?_, ?_, ?_, ?_⟩ <;> simp [createNote, updateNote, hv]

/-- C3 witness: a 250-character title is rejected by both write paths. -/
theorem long_title_rejected_witness :
    createNote emptyDB 0 1 (String.mk (List.replicate 250 'A')) "c" 7 =
      none ∧
    updateNote emptyDB 0 1 (String.mk (List.replicate 250 'A')) "c" =
      none := by
  have h := long_title_rejected emptyDB 0 1
    (String.mk (List.replicate 250 'A')) "c" 7
    (by
      have he : (String.mk (List.replicate 250 'A')).length =
          (List.replicate 250 'A').length := rfl
      rw [titleMaxLength, he, List.length_replicate]
      omega)
  exact ⟨h.1, h.2.1⟩

/-- C10: a title of exactly 200 characters satisfies the length
constraint — the boundary is inclusive — so, when the owner exists, the
create persists the row and an update with it succeeds as well. -/
theorem boundary_title_accepted (db : DB) (now nid : Nat)
    (title content : String) (uid : Nat)
    (hlen : title.length = titleMaxLength)
    (huser : userExists db uid = true) :
    createNote db now nid title content uid =
      some { db with notes :=
        db.notes ++ [⟨nid, title, content, uid, now, now⟩] } ∧
    (updateNote db now nid title content).isSome = true := by
  have hv : validTitle title = true := by
    simp [validTitle, hlen]
  constructor <;> simp [createNote, updateNote, hv, huser]

/-- C10 witness: a 200-character title is accepted on a database holding
its owner. -/
theorem boundary_title_accepted_witness :
    createNote ⟨[⟨7, "alice"⟩], []⟩ 5 1
      (String.mk (List.replicate 200 'A')) "c" 7 =
      some ⟨[⟨7, "alice"⟩],
        [⟨1, String.mk (List.replicate 200 'A'), "c", 7, 5, 5⟩]⟩ ∧
    (updateNote ⟨[⟨7, "alice"⟩], []⟩ 5 1
      (String.mk (List.replicate 200 'A')) "c").isSome = true :=
  boundary_title_accepted ⟨[⟨7, "alice"⟩], []⟩ 5 1
    (String.mk (List.replicate 200 'A')) "c" 7
    (by
      have he : (String.mk (List.replicate 200 'A')).length =
          (List.replicate 200 'A').length := rfl
      rw [titleMaxLength, he, List.length_replicate])
    (by decide)

/-- C7: a successful create stamps both timestamps to the current clock;
a successful update maps each stored row through `touch`, which keeps
`created_at` (and the owner) of every row, re-stamps `updated_at` of the
targeted row to the current clock, and leaves every other row equal to
itself. -/
theorem timestamps_write_path (db : DB) (now nid : Nat)
    (title content : String) (uid : Nat) (db' db'' : DB) :
    (createNote db now nid title content uid = some db' →
      db'.notes = db.notes ++ [⟨nid, title, content, uid, now, now⟩]) ∧
    (updateNote db now nid title content = some db'' →
      db''.notes = db.notes.map (touch now nid title content) ∧
      ∀ n ∈ db.notes,
        (touch now nid title content n).created_at = n.created_at ∧
        (touch now nid title content n).owner = n.owner ∧
        (n.id = nid → (touch now nid title content n).updated_at = now) ∧
        (n.id ≠ nid → touch now nid title content n = n)) := by
  constructor
  · intro h
    rw [createNote] at h
    split at h
    · cases h
      rfl
    · exact Option.noConfusion h
  · intro h
    rw [updateNote] at h
    split at h
    · cases h
      refine ⟨rfl, ?_⟩
      intro n _
      by_cases hid : n.id = nid
      · simp [touch, hid]
      · simp [touch, hid]
    · exact Option.noConfusion h

/-- C7 witness: at a concrete create, the new row carries both timestamps
equal to the clock value of the write. -/
theorem timestamps_write_path_witness :
    ((⟨[⟨7, "alice"⟩], [⟨1, "t", "c", 7, 5, 5⟩]⟩ : DB)).notes =
      ((⟨[⟨7, "alice"⟩], []⟩ : DB)).notes ++ [⟨1, "t", "c", 7, 5, 5⟩] :=
  (timestamps_write_path ⟨[⟨7, "alice"⟩], []⟩ 5 1 "t" "c" 7
    ⟨[⟨7, "alice"⟩], [⟨1, "t", "c", 7, 5, 5⟩]⟩
    ⟨[⟨7, "alice"⟩], []⟩).1 (by decide)

/-- C2: admin search returns exactly the stored notes for which the query
occurs, ignoring case, in the title, in the content, or in the owner's
username — an OR across the three `search_fields`; when exactly one
stored note matches (here: on a duplicate-free store), exactly that note
is returned; when no stored note matches, the result is empty. -/
theorem searchNotes_spec (db : DB) (q : String) :
    (∀ n : Note, n ∈ searchNotes db q ↔
      n ∈ db.notes ∧
        (ciContains n.title q = true ∨ ciContains n.content q = true ∨
          ciContains (usernameOf db n.owner) q = true)) ∧
    (∀ n0 : Note, db.notes.Nodup → n0 ∈ db.notes →
      matchesQuery db q n0 = true →
      (∀ n ∈ db.notes, matchesQuery db q n = true → n = n0) →
      searchNotes db q = [n0]) ∧
    ((∀ n ∈ db.notes, matchesQuery db q n = false) →
      searchNotes db q = []) := by
  have hperm : (searchNotes db q).Perm
      (db.notes.filter (matchesQuery db q)) :=
    List.Perm.filter (matchesQuery db q) (sortByUpdatedDesc_perm db.notes)
  refine ⟨?_, ?_, ?_⟩
  · intro n
    rw [hperm.mem_iff, List.mem_filter, matchesQuery_eq]
    simp [or_assoc]
  · intro n0 hnd hmem hp huniq
    have hfil : db.notes.filter (matchesQuery db q) = [n0] := by
      apply nodup_all_eq_singleton (List.Nodup.filter _ hnd)
      · exact List.mem_filter.mpr ⟨hmem, hp⟩
      · intro x hx
        rcases List.mem_filter.mp hx with ⟨hx1, hx2⟩
        exact huniq x hx1 hx2
    exact List.perm_singleton.mp (hfil ▸ hperm)
  · intro hnone
    have hfil : db.notes.filter (matchesQuery db q) = [] :=
      List.filter_eq_nil_iff.mpr (fun a ha => by simp [hnone a ha])
    exact (hfil ▸ hperm).eq_nil

/-- C2 witness: on a store of two notes, the query `"zQ"` occurs (ignoring
case) only in the first note's content — in no title and no username — and
the search returns exactly that note; the query `"none at all"` matches
nothing and the search returns the empty list. -/
theorem searchNotes_spec_witness :
    searchNotes ⟨[⟨7, "alice"⟩],
      [⟨1, "Alpha", "xyZq", 7, 1, 1⟩, ⟨2, "Beta", "other", 7, 2, 2⟩]⟩
      "zQ" = [⟨1, "Alpha", "xyZq", 7, 1, 1⟩] ∧
    searchNotes ⟨[⟨7, "alice"⟩],
      [⟨1, "Alpha", "xyZq", 7, 1, 1⟩, ⟨2, "Beta", "other", 7, 2, 2⟩]⟩
      "none at all" = [] :=
  ⟨(searchNotes_spec ⟨[⟨7, "alice"⟩],
      [⟨1, "Alpha", "xyZq", 7, 1, 1⟩, ⟨2, "Beta", "other", 7, 2, 2⟩]⟩
      "zQ").2.1 ⟨1, "Alpha", "xyZq", 7, 1, 1⟩
      (by decide) (by decide) (by decide) (by decide),
    (searchNotes_spec ⟨[⟨7, "alice"⟩],
      [⟨1, "Alpha", "xyZq", 7, 1, 1⟩, ⟨2, "Beta", "other", 7, 2, 2⟩]⟩
      "none at all").2.2 (by decide)⟩

/-- C4: in every reachable state — after any sequence of user
registrations, note creations, updates and deletions under a
forward-moving clock — every stored note satisfies
`created_at ≤ updated_at`. -/
theorem created_le_updated {t : Nat} {db : DB} (h : Reachable t db) :
    ∀ n ∈ db.notes, n.created_at ≤ n.updated_at :=
  fun n hn => (reachable_inv h n hn).1

/-- C4 witness: a state reached by registering a user and creating one
note at clock 3 satisfies the timestamp inequality on that note. -/
theorem created_le_updated_witness :
    (⟨1, "t", "c", 7, 3, 3⟩ : Note).created_at ≤
      (⟨1, "t", "c", 7, 3, 3⟩ : Note).updated_at := by
  have h0 : Reachable 0 (addUser emptyDB ⟨7, "alice"⟩) :=
    Reachable.user ⟨7, "alice"⟩ Reachable.init
  have h1 : Reachable 3
      ⟨[⟨7, "alice"⟩], [⟨1, "t", "c", 7, 3, 3⟩]⟩ :=
    Reachable.create 1 "t" "c" 7 h0 (by omega) (by decide)
  exact created_le_updated h1 ⟨1, "t", "c", 7, 3, 3⟩ (by decide)

end NotesApp
